import Mathlib

/-!
# Verification of the wind-turbine data pipeline (`wind_pipeline.py`)

Shallow embedding of the core transform pipeline:

* `clean_data`   – deduplication, timestamp normalisation, mandatory-field
  filter, per-turbine median imputation, percentile fence, column
  restoration, sort (source lines 71–124);
* `calculate_daily_stats` – per (turbine, calendar day) min/max/mean
  (source lines 132–151);
* `detect_anomalies` – same-day two-sigma flagging (source lines 159–196).

Modelling conventions:

* A pandas `DataFrame` is a `List Row`; a `Row` has the minimum schema the
  Loader guarantees (`timestamp`, `turbine_id`, `power_output`) plus the
  `source_file` provenance column, in that order.
* Nullable cells (`NaN`/`NaT`/missing) are `Option`s.  The raw `timestamp`
  column is text (`RawRow.timestamp : String`); `pd.to_datetime(·, utc=True,
  errors="coerce")` is modelled by an arbitrary parse map
  `parseTs : String → Option Int` (epoch seconds, `none` = `NaT`) — a fixed
  many-to-one partial function, since distinct spellings can denote a single
  instant.  Deduplication runs on the raw text and parsing after it, exactly
  as in the source (lines 92/95).  On an already-parsed frame (the
  idempotence claim) `pd.to_datetime` is the identity, and the re-run of the
  Cleaner on its own output is `clean_data_rerun`.
* `power_output` is exact rational arithmetic (`ℚ`) in place of IEEE
  floats; quantiles, medians, means and variances are computed exactly.
* The standard deviation comparison `|x - mean| > 2·std` (with
  `std = √var`) is encoded by the exactly equivalent square-free test
  `(x - mean)² > 4·var` (both sides of the original comparison are
  nonnegative); the equivalence with the √ form is proved as a theorem
  over `ℝ`.
* The column-structure of the frames (which the merge steps temporarily
  extend) is modelled by `cells` renderings of the row structures into
  ordered `(name, value)` lists, and `clean_data`'s `df.loc[mask,
  raw.columns]` projection by `selectCells`.
-/

attribute [local semireducible] Rat.mul Rat.inv Rat.add Rat.sub Rat.ofScientific

/-- One value of a DataFrame cell, for the column-structure claims. -/
inductive Val where
  | vNull : Val
  | vInt : Int → Val
  | vNat : Nat → Val
  | vRat : ℚ → Val
  | vStr : String → Val
  | vBool : Bool → Val
deriving DecidableEq

/-- Render an optional cell, `none` becoming a null cell. -/
def optCell {α : Type} (f : α → Val) : Option α → Val
  | none => Val.vNull
  | some a => f a

/-- One record of the frame after timestamp parsing: `timestamp` is a UTC
instant in epoch seconds, `none` standing for `NaT` (minimum Loader schema
plus the `source_file` provenance column). -/
structure Row where
  timestamp : Option Int
  turbine_id : Option Nat
  power_output : Option ℚ
  source_file : String
deriving DecidableEq

/-- One record of the concatenated raw feed as loaded from the CSVs: the
`timestamp` column is still raw text (`pd.to_datetime` has not run yet), so
two different spellings of the same instant are different values here.  A
missing timestamp cell is represented by its unparseable textual form — it is
coerced to `NaT` exactly like any other unparseable spelling, and the two are
interchangeable everywhere downstream. -/
structure RawRow where
  timestamp : String
  turbine_id : Option Nat
  power_output : Option ℚ
  source_file : String
deriving DecidableEq

/-- The original column order of the raw frame (Loader minimum schema with
`source_file` appended last by `load_and_concat_data`). -/
def rawColumns : List String := ["timestamp", "turbine_id", "power_output", "source_file"]

/-- The cells of a raw-schema row, in original column order. -/
def Row.cells (r : Row) : List (String × Val) :=
  [("timestamp", optCell Val.vInt r.timestamp),
   ("turbine_id", optCell Val.vNat r.turbine_id),
   ("power_output", optCell Val.vRat r.power_output),
   ("source_file", Val.vStr r.source_file)]

/-- `df.loc[mask, cols]` column selection: keep exactly the columns named in
`sel`, in `sel`'s order, with their values looked up in the frame. -/
def selectCells (sel : List String) (cells : List (String × Val)) : List (String × Val) :=
  sel.filterMap (fun c => (cells.lookup c).map (fun v => (c, v)))

/-! ## Generic helpers: keep-first deduplication and sorting -/

/-- `pd.DataFrame.drop_duplicates()` keeps the first occurrence of each
duplicated row; `seen` accumulates rows already emitted. -/
def dedupFirstAux {α : Type} [DecidableEq α] (seen : List α) : List α → List α
  | [] => []
  | r :: rs => if r ∈ seen then dedupFirstAux seen rs else r :: dedupFirstAux (r :: seen) rs

/-- Exact-duplicate removal keeping first occurrences (`drop_duplicates`). -/
def dedupFirst {α : Type} [DecidableEq α] (l : List α) : List α := dedupFirstAux [] l

/-- Order used by `sort_values(["turbine_id", "timestamp"])` on the timestamp
component: ascending, with nulls (`NaT`) last. -/
def tsLeB : Option Int → Option Int → Bool
  | some x, some y => x ≤ y
  | some _, none => true
  | none, some _ => false
  | none, none => true

/-- Order used by `sort_values(["turbine_id", "timestamp"])`: lexicographic on
`(turbine_id, timestamp)`, ascending, nulls last. -/
def rowLeB (a b : Row) : Bool :=
  match a.turbine_id, b.turbine_id with
  | some x, some y => x < y || (x == y && tsLeB a.timestamp b.timestamp)
  | some _, none => true
  | none, some _ => false
  | none, none => tsLeB a.timestamp b.timestamp

/-- The row order as a relation, for `List.insertionSort`. -/
def RowLe (a b : Row) : Prop := rowLeB a b = true

instance : DecidableRel RowLe := fun a b => inferInstanceAs (Decidable (rowLeB a b = true))

/-- `df.sort_values(["turbine_id", "timestamp"])` (a stable sorted rearrangement). -/
def sortRows (l : List Row) : List Row := List.insertionSort RowLe l

/-! ## Statistics helpers (pandas semantics, exact arithmetic) -/

/-- Sorted copy of a rational list (ascending). -/
def sortQ (l : List ℚ) : List ℚ := List.insertionSort (· ≤ ·) l

/-- `Series.median()` over the non-null values handed to it: middle element,
or the mean of the two middle elements; `none` on an empty series. -/
def median (l : List ℚ) : Option ℚ :=
  match l with
  | [] => none
  | _ :: _ =>
    let s := sortQ l
    let n := s.length
    if n % 2 = 1 then some (s.getD (n / 2) 0)
    else some ((s.getD (n / 2 - 1) 0 + s.getD (n / 2) 0) / 2)

/-- `Series.quantile(q)` with pandas' default linear interpolation: with the
values sorted and `h = q·(n-1)`, interpolate between positions `⌊h⌋` and
`⌊h⌋+1`; `none` on an empty series. -/
def quantile (l : List ℚ) (q : ℚ) : Option ℚ :=
  match l with
  | [] => none
  | _ :: _ =>
    let s := sortQ l
    let n := s.length
    let h : ℚ := q * ((n : ℚ) - 1)
    let i : ℕ := (⌊h⌋).toNat
    let lo := s.getD i 0
    let hi := s.getD (min (i + 1) (n - 1)) 0
    some (lo + (h - (i : ℚ)) * (hi - lo))

/-- `min` aggregate of a group (pandas skips nulls before this is called). -/
def listMin : List ℚ → ℚ
  | [] => 0
  | x :: xs => xs.foldl min x

/-- `max` aggregate of a group. -/
def listMax : List ℚ → ℚ
  | [] => 0
  | x :: xs => xs.foldl max x

/-- `mean` aggregate of a group (arithmetic mean). -/
def listMean (l : List ℚ) : ℚ := l.sum / (l.length : ℚ)

/-- Sample variance (`ddof = 1`), i.e. the square of `Series.std()`.  A group
of fewer than two values has an undefined (`NaN`) standard deviation; the
pipeline's `std.fillna(0)` maps that to tolerance `0`, which this encoding
represents directly by variance `0` (both routes land in the zero-tolerance
rule). -/
def sampleVar (l : List ℚ) : ℚ :=
  if 2 ≤ l.length then
    ((l.map (fun x => (x - listMean l) ^ 2)).sum) / ((l.length : ℚ) - 1)
  else 0

/-- The sample standard deviation as a real number (`Series.std()`), for the
specification-level statements. -/
noncomputable def sampleStd (l : List ℚ) : ℝ := Real.sqrt ((sampleVar l : ℚ) : ℝ)

/-! ## Cleaner (`clean_data`, source lines 71–124) -/

/-- Step 1, `df.drop_duplicates()`: exact-duplicate removal on the *raw*
frame.  The timestamp column is still text at this point, so rows carrying
two different spellings of one instant are not duplicates here. -/
def dropDuplicates (l : List RawRow) : List RawRow := dedupFirst l

/-- `pd.to_datetime(·, utc=True, errors="coerce")` applied to one row.  The
parse map `parseTs` stands for the external datetime parser: a fixed
many-to-one partial function from raw text to UTC instants (`none` = `NaT`);
every theorem below holds for an arbitrary such map. -/
def parseRow (parseTs : String → Option Int) (r : RawRow) : Row :=
  { timestamp := parseTs r.timestamp, turbine_id := r.turbine_id,
    power_output := r.power_output, source_file := r.source_file }

/-- Step 2, `df["timestamp"] = pd.to_datetime(df["timestamp"], utc=True,
errors="coerce")`. -/
def parseTimestamps (parseTs : String → Option Int) (l : List RawRow) : List Row :=
  l.map (parseRow parseTs)

/-- Step 3, `df.dropna(subset=["turbine_id", "timestamp"])`. -/
def dropNullKeys (l : List Row) : List Row :=
  l.filter (fun r => r.turbine_id.isSome && r.timestamp.isSome)

/-- The non-null power readings of one turbine's rows (`groupby("turbine_id")
["power_output"]` with pandas aggregates skipping nulls). -/
def turbinePowers (l : List Row) (t : Nat) : List ℚ :=
  (l.filter (fun r => r.turbine_id == some t)).filterMap (·.power_output)

/-- Step 4, per-turbine median imputation of one row:
`df["power_output"].fillna(df.groupby("turbine_id")["power_output"]
.transform("median"))`.  A row whose turbine has no non-null reading keeps a
null power (the group median is itself null); rows with a null
`turbine_id` belong to no group and also keep their value. -/
def imputeRow (l : List Row) (r : Row) : Row :=
  match r.power_output with
  | some _ => r
  | none =>
    match r.turbine_id with
    | some t => { r with power_output := median (turbinePowers l t) }
    | none => r

/-- Step 4 applied to the whole frame (group medians computed on `l` itself). -/
def imputeMissing (l : List Row) : List Row := l.map (imputeRow l)

/-- Step 5, `df.dropna(subset=["power_output"])`. -/
def dropNullPower (l : List Row) : List Row :=
  l.filter (fun r => r.power_output.isSome)

/-- Steps 3–5 of `clean_data` (mandatory-field filter, imputation,
residual-null drop), which operate on the parsed frame. -/
def postParse (l : List Row) : List Row :=
  dropNullPower (imputeMissing (dropNullKeys l))

/-- The pipeline state entering the fence step: steps 1–5 of `clean_data`. -/
def preFence (parseTs : String → Option Int) (raw : List RawRow) : List Row :=
  postParse (parseTimestamps parseTs (dropDuplicates raw))

/-- Lower fence bound of a turbine, `q_low * 0.5` with
`q_low = quantile(0.01)` of the turbine's powers in `l`; `none` when the
merge finds no fence row for the key (null key). -/
def fenceLow (l : List Row) : Option Nat → Option ℚ
  | none => none
  | some t => (quantile (turbinePowers l t) (1 / 100)).map (fun q => q * (1 / 2))

/-- Upper fence bound of a turbine, `q_high * 1.5` with
`q_high = quantile(0.99)`. -/
def fenceHigh (l : List Row) : Option Nat → Option ℚ
  | none => none
  | some t => (quantile (turbinePowers l t) (99 / 100)).map (fun q => q * (3 / 2))

/-- A row of the frame produced by `df.merge(fences, on="turbine_id",
how="left")`: the original columns plus the derived `low`/`high` fence
columns. -/
structure MergedRow where
  timestamp : Option Int
  turbine_id : Option Nat
  power_output : Option ℚ
  source_file : String
  low : Option ℚ
  high : Option ℚ
deriving DecidableEq

/-- The cells of a merged row: original columns, then the derived fence
columns appended by the merge. -/
def MergedRow.cells (m : MergedRow) : List (String × Val) :=
  [("timestamp", optCell Val.vInt m.timestamp),
   ("turbine_id", optCell Val.vNat m.turbine_id),
   ("power_output", optCell Val.vRat m.power_output),
   ("source_file", Val.vStr m.source_file),
   ("low", optCell Val.vRat m.low),
   ("high", optCell Val.vRat m.high)]

/-- The left merge with the per-turbine fence table, for one row (the fence
table has one row per turbine key, so the merge is many-to-one and keeps the
left frame's rows in place). -/
def mergeRowOf (l : List Row) (r : Row) : MergedRow :=
  { timestamp := r.timestamp, turbine_id := r.turbine_id,
    power_output := r.power_output, source_file := r.source_file,
    low := fenceLow l r.turbine_id, high := fenceHigh l r.turbine_id }

/-- `df.merge(fences, on="turbine_id", how="left")` on the whole frame. -/
def mergeFences (l : List Row) : List MergedRow := l.map (mergeRowOf l)

/-- The fence mask `(df["power_output"] >= df["low"]) &
(df["power_output"] <= df["high"])`; any comparison against a null is
false. -/
def fenceMask (m : MergedRow) : Bool :=
  match m.power_output, m.low, m.high with
  | some p, some lo, some hi => decide (lo ≤ p) && decide (p ≤ hi)
  | _, _, _ => false

/-- A raw-schema row passes the fence computed on frame `l`. -/
def inFenceB (l : List Row) (r : Row) : Bool := fenceMask (mergeRowOf l r)

/-- `df.loc[mask, raw.columns]` on one row: keep the original columns only,
restoring the original column order. -/
def restoreColumns (m : MergedRow) : Row :=
  { timestamp := m.timestamp, turbine_id := m.turbine_id,
    power_output := m.power_output, source_file := m.source_file }

/-- Steps 6–8 of `clean_data`: fence merge, mask, column restoration, sort. -/
def fenceSort (l : List Row) : List Row :=
  sortRows (((mergeFences l).filter fenceMask).map restoreColumns)

/-- `clean_data` (source lines 71–124): dedup, parse, drop null keys, impute,
drop null powers, fence, restore the original columns, sort. -/
def clean_data (parseTs : String → Option Int) (raw : List RawRow) : List Row :=
  fenceSort (preFence parseTs raw)

/-- `clean_data` applied to its own (already cleaned) output: the timestamp
column of a cleaned frame is already timezone-aware `datetime64`, on which
`pd.to_datetime(·, utc=True, errors="coerce")` is the identity — so step 2
disappears and the dedup of step 1 operates on the parsed values. -/
def clean_data_rerun (l : List Row) : List Row :=
  fenceSort (postParse (dedupFirst l))

/-! ## Daily statistics (`calculate_daily_stats`, source lines 132–151) -/

/-- `timestamp.dt.date` on the UTC-anchored timestamp (epoch seconds →
calendar day index). -/
def calendarDate (t : Int) : Int := Int.fdiv t 86400

/-- The `(turbine_id, date)` group key of a row; `none` when either part is
null (pandas group-bys and merges skip null keys). -/
def rowKey (r : Row) : Option (Nat × Int) :=
  match r.turbine_id, r.timestamp with
  | some t, some ts => some (t, calendarDate ts)
  | _, _ => none

/-- Lexicographic order on group keys (`groupby` sorts its keys). -/
def keyLeB (a b : Nat × Int) : Bool :=
  decide (a.1 < b.1) || (decide (a.1 = b.1) && decide (a.2 ≤ b.2))

/-- The key order as a relation, for `List.insertionSort`. -/
def KeyLe (a b : Nat × Int) : Prop := keyLeB a b = true

instance : DecidableRel KeyLe := fun a b => inferInstanceAs (Decidable (keyLeB a b = true))

/-- The distinct `(turbine_id, date)` keys of a frame, in `groupby`'s sorted
key order. -/
def groupKeys (l : List Row) : List (Nat × Int) :=
  List.insertionSort KeyLe (dedupFirst (l.filterMap rowKey))

/-- The non-null power readings of one `(turbine_id, date)` group. -/
def groupPowers (l : List Row) (t : Nat) (d : Int) : List ℚ :=
  (l.filter (fun r => rowKey r == some (t, d))).filterMap (·.power_output)

/-- One output record of `calculate_daily_stats`. -/
structure DailyStat where
  turbine_id : Nat
  date : Int
  min_output : ℚ
  max_output : ℚ
  avg_output : ℚ
deriving DecidableEq

/-- `calculate_daily_stats` (source lines 132–151): group by
`(turbine_id, date)` and aggregate min/max/mean of `power_output`. -/
def calculate_daily_stats (clean : List Row) : List DailyStat :=
  (groupKeys clean).map (fun k =>
    { turbine_id := k.1, date := k.2,
      min_output := listMin (groupPowers clean k.1 k.2),
      max_output := listMax (groupPowers clean k.1 k.2),
      avg_output := listMean (groupPowers clean k.1 k.2) })

/-! ## Anomaly detection (`detect_anomalies`, source lines 159–196) -/

/-- One output record of `detect_anomalies`: the input columns, the `date`
helper column added by `work["date"] = ...` (which the final
`drop(columns=["mean", "std"])` does *not* remove), and `is_anomaly`. -/
structure AnomalyRow where
  timestamp : Option Int
  turbine_id : Option Nat
  power_output : Option ℚ
  source_file : String
  date : Option Int
  is_anomaly : Bool
deriving DecidableEq

/-- The cells of an anomaly record, in the order the returned frame has them:
the original columns, then `date`, then `is_anomaly` (the intermediate
`mean`/`std` columns having been dropped). -/
def AnomalyRow.cells (a : AnomalyRow) : List (String × Val) :=
  [("timestamp", optCell Val.vInt a.timestamp),
   ("turbine_id", optCell Val.vNat a.turbine_id),
   ("power_output", optCell Val.vRat a.power_output),
   ("source_file", Val.vStr a.source_file),
   ("date", optCell Val.vInt a.date),
   ("is_anomaly", Val.vBool a.is_anomaly)]

/-- The anomaly flag of one row against the day statistics of frame `clean`:
`tol = 2 * std.fillna(0)`, `tol.replace(0, inf)`, flag
`|power_output − mean| > tol`.  A null group key or null power never flags
(the merge finds no statistics row / the comparison with `NaN` is false); a
zero tolerance is replaced by `+∞`, so nothing flags; otherwise the strict
comparison `|p − mean| > 2·√var` is encoded square-free as
`(p − mean)² > 4·var`. -/
def isAnomalyFlag (clean : List Row) (r : Row) : Bool :=
  match rowKey r, r.power_output with
  | some (t, d), some p =>
    let ps := groupPowers clean t d
    if ps.length = 0 then false
    else if sampleVar ps = 0 then false
    else decide ((p - listMean ps) ^ 2 > 4 * sampleVar ps)
  | _, _ => false

/-- `detect_anomalies` (source lines 159–196): add the `date` column, merge
the per-group mean/std (a many-to-one left merge, keeping exactly one output
row per input row, in place), compute `is_anomaly`, drop `mean`/`std`. -/
def detect_anomalies (clean : List Row) : List AnomalyRow :=
  clean.map (fun r =>
    { timestamp := r.timestamp, turbine_id := r.turbine_id,
      power_output := r.power_output, source_file := r.source_file,
      date := r.timestamp.map calendarDate,
      is_anomaly := isAnomalyFlag clean r })

/-! ## Spec-side predicates and concrete inputs -/

/-- Modelled from the spec's words (§8 Fence containment): every surviving
row's power lies inside the fence whose quantiles are computed over the
*surviving* rows of the same turbine.  (The source computes the quantiles on
the rows entering the fence step instead; the two are compared in the C1
theorems.) -/
def fenceContainmentOverOutput (out : List Row) : Prop :=
  ∀ r ∈ out, inFenceB out r = true

instance (out : List Row) : Decidable (fenceContainmentOverOutput out) :=
  inferInstanceAs (Decidable (∀ r ∈ out, inFenceB out r = true))

/-- Every row has non-null `turbine_id`, `timestamp` and `power_output`
(the CleanedDataset field invariants, §3b–c of the spec). -/
def isCleaned (l : List Row) : Bool :=
  l.all (fun r => r.turbine_id.isSome && r.timestamp.isSome && r.power_output.isSome)

/-- A concrete stand-in for the external datetime parser on the example
inputs: `"t0"` and `"t0b"` are two distinct spellings of the same instant
(as `"2024-01-01"` and `"2024-01-01 00:00:00"` are for `pd.to_datetime`),
`"t1"`/`"t2"` are later instants, and any other text is unparseable. -/
def exParse (s : String) : Option Int :=
  if s = "t0" then some 0
  else if s = "t0b" then some 0
  else if s = "t1" then some 1
  else if s = "t2" then some 2
  else none

/-- Concrete raw input: one turbine, three rows with powers 0, 1, 200.  The
fence on [0, 1, 200] is [0.01, 294.03] and drops only the 0-row, after which
the fence recomputed on the survivors [1, 200] is [1.495, 297.015] and
excludes the surviving 1-row. -/
def exFence : List RawRow :=
  [{ timestamp := "t0", turbine_id := some 1, power_output := some 0, source_file := "a" },
   { timestamp := "t1", turbine_id := some 1, power_output := some 1, source_file := "a" },
   { timestamp := "t2", turbine_id := some 1, power_output := some 200, source_file := "a" }]

/-- Concrete raw input: two rows identical except that one has a missing
power; imputation fills the missing value with the group median 5, turning
the two rows into exact duplicates *after* the dedup step has already run. -/
def exDup : List RawRow :=
  [{ timestamp := "t0", turbine_id := some 1, power_output := none, source_file := "a" },
   { timestamp := "t0", turbine_id := some 1, power_output := some 5, source_file := "a" }]

/-- Concrete raw input: two rows identical except for the *spelling* of the
same timestamp instant, with all powers present.  The string-level dedup of
step 1 keeps both; parsing then makes them exact duplicates. -/
def exSpell : List RawRow :=
  [{ timestamp := "t0", turbine_id := some 1, power_output := some 5, source_file := "a" },
   { timestamp := "t0b", turbine_id := some 1, power_output := some 5, source_file := "a" }]

/-- Concrete cleaned input: a single row (turbine 1, timestamp 0, power 10). -/
def exClean1 : List Row :=
  [{ timestamp := some 0, turbine_id := some 1, power_output := some 10, source_file := "a" }]

/-- Concrete cleaned input: one turbine-day with two readings 10 and 20
(sample variance 50). -/
def exDay : List Row :=
  [{ timestamp := some 0, turbine_id := some 1, power_output := some 10, source_file := "a" },
   { timestamp := some 1, turbine_id := some 1, power_output := some 20, source_file := "a" }]

/-- Concrete cleaned input: one turbine-day with two identical readings. -/
def exConst : List Row :=
  [{ timestamp := some 0, turbine_id := some 1, power_output := some 10, source_file := "a" },
   { timestamp := some 1, turbine_id := some 1, power_output := some 10, source_file := "a" }]

/-! ## Helper lemmas: deduplication -/

theorem mem_dedupFirstAux {α : Type} [DecidableEq α] {a : α} :
    ∀ {seen l : List α}, a ∈ dedupFirstAux seen l ↔ a ∈ l ∧ a ∉ seen := by
  intro seen l
  induction l generalizing seen with
  | nil => simp [dedupFirstAux]
  | cons r rs ih =>
    by_cases hr : r ∈ seen
    · rw [dedupFirstAux, if_pos hr, ih]
      constructor
      · rintro ⟨h1, h2⟩; exact ⟨List.mem_cons_of_mem _ h1, h2⟩
      · rintro ⟨h1, h2⟩
        rcases List.mem_cons.1 h1 with h | h
        · exact absurd (h ▸ hr) h2
        · exact ⟨h, h2⟩
    · rw [dedupFirstAux, if_neg hr]
      simp only [List.mem_cons, ih]
      constructor
      · rintro (rfl | ⟨h1, h2⟩)
        · exact ⟨Or.inl rfl, hr⟩
        · exact ⟨Or.inr h1, fun hs => h2 (by simp [hs])⟩
      · rintro ⟨rfl | h1, h2⟩
        · exact Or.inl rfl
        · by_cases har : a = r
          · exact Or.inl har
          · exact Or.inr ⟨h1, by simp [har, h2]⟩

theorem mem_dedupFirst {α : Type} [DecidableEq α] {a : α} {l : List α} :
    a ∈ dedupFirst l ↔ a ∈ l := by
  simp [dedupFirst, mem_dedupFirstAux]

theorem sublist_dedupFirstAux {α : Type} [DecidableEq α] :
    ∀ {seen l : List α}, (dedupFirstAux seen l).Sublist l := by
  intro seen l
  induction l generalizing seen with
  | nil => simp [dedupFirstAux]
  | cons r rs ih =>
    by_cases hr : r ∈ seen
    · rw [dedupFirstAux, if_pos hr]
      exact ih.trans (List.sublist_cons_self r rs)
    · rw [dedupFirstAux, if_neg hr]
      exact ih.cons₂ r

theorem sublist_dedupFirst {α : Type} [DecidableEq α] (l : List α) :
    (dedupFirst l).Sublist l := sublist_dedupFirstAux

theorem nodup_dedupFirstAux {α : Type} [DecidableEq α] :
    ∀ {seen l : List α}, (dedupFirstAux seen l).Nodup := by
  intro seen l
  induction l generalizing seen with
  | nil => simp [dedupFirstAux]
  | cons r rs ih =>
    by_cases hr : r ∈ seen
    · rw [dedupFirstAux, if_pos hr]; exact ih
    · rw [dedupFirstAux, if_neg hr]
      refine List.nodup_cons.2 ⟨fun hmem => ?_, ih⟩
      exact (mem_dedupFirstAux.1 hmem).2 (List.mem_cons_self r seen)

theorem nodup_dedupFirst {α : Type} [DecidableEq α] (l : List α) :
    (dedupFirst l).Nodup := nodup_dedupFirstAux

/-! ## Helper lemmas: the row order and sorting -/

theorem tsLeB_total (u v : Option Int) : tsLeB u v = true ∨ tsLeB v u = true := by
  rcases u with _ | x <;> rcases v with _ | y
  · left; rfl
  · right; rfl
  · left; rfl
  · simp only [tsLeB, decide_eq_true_eq]; omega

theorem tsLeB_trans {u v w : Option Int} (h1 : tsLeB u v = true) (h2 : tsLeB v w = true) :
    tsLeB u w = true := by
  rcases u with _ | x <;> rcases v with _ | y <;> rcases w with _ | z <;>
    simp_all [tsLeB]
  omega

theorem rowLe_total (a b : Row) : RowLe a b ∨ RowLe b a := by
  unfold RowLe rowLeB
  rcases ha : a.turbine_id with _ | x <;> rcases hb : b.turbine_id with _ | y <;>
    simp only []
  · exact tsLeB_total a.timestamp b.timestamp
  · simp
  · simp
  · rcases Nat.lt_trichotomy x y with h | h | h
    · left; simp [h]
    · subst h
      rcases tsLeB_total a.timestamp b.timestamp with ht | ht <;> simp [ht]
    · right; simp [h]

theorem rowLe_trans {a b c : Row} (h1 : RowLe a b) (h2 : RowLe b c) : RowLe a c := by
  unfold RowLe rowLeB at *
  rcases ha : a.turbine_id with _ | x <;> rcases hb : b.turbine_id with _ | y <;>
    rcases hc : c.turbine_id with _ | z <;> simp_all
  · exact tsLeB_trans h1 h2
  · rcases h1 with h1 | ⟨rfl, h1⟩ <;> rcases h2 with h2 | ⟨rfl, h2⟩
    · exact Or.inl (h1.trans h2)
    · exact Or.inl h1
    · exact Or.inl h2
    · exact Or.inr ⟨rfl, tsLeB_trans h1 h2⟩

instance : IsTotal Row RowLe := ⟨rowLe_total⟩

instance : IsTrans Row RowLe := ⟨fun _ _ _ => rowLe_trans⟩

theorem perm_sortRows (l : List Row) : (sortRows l).Perm l :=
  List.perm_insertionSort RowLe l

theorem mem_sortRows {r : Row} {l : List Row} : r ∈ sortRows l ↔ r ∈ l :=
  (perm_sortRows l).mem_iff

theorem sorted_sortRows (l : List Row) : (sortRows l).Sorted RowLe :=
  List.sorted_insertionSort RowLe l

theorem sortRows_eq_self {l : List Row} (h : l.Sorted RowLe) : sortRows l = l :=
  h.insertionSort_eq

/-! ## Helper lemmas: membership through the cleaning pipeline -/

/-- Imputation never touches the key fields, and never empties a present
power. -/
theorem imputeRow_fields (l : List Row) (r : Row) :
    (imputeRow l r).turbine_id = r.turbine_id ∧
      (imputeRow l r).timestamp = r.timestamp ∧
      (imputeRow l r).source_file = r.source_file := by
  unfold imputeRow
  rcases r.power_output with _ | p <;> rcases h : r.turbine_id with _ | t <;> simp [h]

/-- A row that survives steps 3–5 has all three mandatory fields non-null. -/
theorem postParse_fields {l : List Row} {r : Row} (h : r ∈ postParse l) :
    r.turbine_id.isSome = true ∧ r.timestamp.isSome = true ∧
      r.power_output.isSome = true := by
  unfold postParse dropNullPower at h
  rw [List.mem_filter] at h
  obtain ⟨hmem, hpow⟩ := h
  unfold imputeMissing at hmem
  rw [List.mem_map] at hmem
  obtain ⟨s, hs, rfl⟩ := hmem
  unfold dropNullKeys at hs
  rw [List.mem_filter] at hs
  obtain ⟨-, hkeys⟩ := hs
  rw [Bool.and_eq_true] at hkeys
  obtain ⟨ht, hts⟩ := hkeys
  obtain ⟨e1, e2, -⟩ := imputeRow_fields _ s
  exact ⟨e1 ▸ ht, e2 ▸ hts, hpow⟩

/-- Rows coming out of the fence-and-sort stage are exactly the rows entering
it that pass the fence computed there. -/
theorem mem_fenceSort {l : List Row} {r : Row} :
    r ∈ fenceSort l ↔ r ∈ l ∧ inFenceB l r = true := by
  unfold fenceSort
  rw [mem_sortRows, List.mem_map]
  constructor
  · rintro ⟨m, hm, rfl⟩
    rw [List.mem_filter] at hm
    obtain ⟨hmem, hmask⟩ := hm
    unfold mergeFences at hmem
    rw [List.mem_map] at hmem
    obtain ⟨s, hs, rfl⟩ := hmem
    exact ⟨hs, hmask⟩
  · rintro ⟨hmem, hmask⟩
    refine ⟨mergeRowOf l r, List.mem_filter.2 ⟨?_, hmask⟩, rfl⟩
    exact List.mem_map.2 ⟨r, hmem, rfl⟩

theorem map_eq_self_of {α : Type} {f : α → α} :
    ∀ {l : List α}, (∀ a ∈ l, f a = a) → l.map f = l := by
  intro l
  induction l with
  | nil => intro; rfl
  | cons x xs ih =>
    intro h
    rw [List.map_cons, h x (List.mem_cons_self x xs),
      ih (fun a ha => h a (List.mem_cons_of_mem x ha))]

/-- The fence step (merge, mask, column restoration) equals filtering the
incoming rows by the fence computed on them. -/
theorem fence_stage_eq (l : List Row) :
    ((mergeFences l).filter fenceMask).map restoreColumns =
      l.filter (fun r => inFenceB l r) := by
  unfold mergeFences
  rw [List.filter_map, List.map_map]
  have h1 : restoreColumns ∘ mergeRowOf l = id := rfl
  have h2 : fenceMask ∘ mergeRowOf l = fun r => inFenceB l r := rfl
  rw [h1, h2, List.map_id]

/-- Imputation is the identity on a row whose power is present. -/
theorem imputeRow_of_some {l : List Row} {r : Row} (h : r.power_output.isSome = true) :
    imputeRow l r = r := by
  unfold imputeRow
  rcases hp : r.power_output with _ | p
  · rw [hp] at h; cases h
  · rfl

/-- On a frame whose rows already satisfy the CleanedDataset field
invariants, steps 3–5 of the Cleaner do nothing. -/
theorem postParse_of_cleaned {l : List Row}
    (h : ∀ r ∈ l, r.turbine_id.isSome = true ∧ r.timestamp.isSome = true ∧
      r.power_output.isSome = true) :
    postParse l = l := by
  unfold postParse
  have h3 : dropNullKeys l = l := by
    unfold dropNullKeys
    refine List.filter_eq_self.2 fun r hr => ?_
    obtain ⟨h1, h2, -⟩ := h r hr
    rw [h1, h2]; rfl
  rw [h3]
  have h4 : imputeMissing l = l := by
    unfold imputeMissing
    exact map_eq_self_of fun r hr => imputeRow_of_some (h r hr).2.2
  rw [h4]
  unfold dropNullPower
  exact List.filter_eq_self.2 fun r hr => (h r hr).2.2

/-- Every row of the Cleaner's output satisfies the CleanedDataset field
invariants. -/
theorem clean_data_fields {parseTs : String → Option Int} {raw : List RawRow} :
    ∀ r ∈ clean_data parseTs raw, r.turbine_id.isSome = true ∧
      r.timestamp.isSome = true ∧ r.power_output.isSome = true :=
  fun _ hr => postParse_fields (mem_fenceSort.1 hr).1

/-- The Cleaner's output is sorted by `(turbine_id, timestamp)`. -/
theorem clean_data_sorted (parseTs : String → Option Int) (raw : List RawRow) :
    (clean_data parseTs raw).Sorted RowLe :=
  sorted_sortRows _

/-! ## C1 — fence containment -/

/-- C1 counterexample: on the raw input with powers `[0, 1, 200]` the
Cleaner's output (powers `[1, 200]`) contains a row (power 1) lying outside
the fence whose 1%/99% quantiles are computed over the output's own rows
(that fence is `[1.495, 297.015]`).  The claim "power_output ∈
[q_low·0.5, q_high·1.5] with quantiles over that same turbine's *surviving*
rows" is therefore false of the code. -/
theorem clean_data_fence_over_output_cex :
    ¬ fenceContainmentOverOutput (clean_data exParse exFence) := by
  decide

/-- C1 amended: every row of the Cleaner's output has `power_output` inside
the closed fence `[q_low·0.5, q_high·1.5]` where the 1st/99th percentiles are
computed over that turbine's rows *entering the fence step* (after dedup,
timestamp parsing, mandatory-field filter, imputation and residual-null
drop) — not over the surviving rows themselves. -/
theorem clean_data_fence_over_prefence (parseTs : String → Option Int)
    (raw : List RawRow) :
    ∀ r ∈ clean_data parseTs raw, inFenceB (preFence parseTs raw) r = true :=
  fun _ hr => (mem_fenceSort.1 hr).2

/-- Witness for `clean_data_fence_over_prefence` at a concrete input. -/
theorem clean_data_fence_over_prefence_wit :
    ({ timestamp := some 1, turbine_id := some 1, power_output := some 1,
        source_file := "a" } : Row) ∈ clean_data exParse exFence ∧
      inFenceB (preFence exParse exFence)
        { timestamp := some 1, turbine_id := some 1, power_output := some 1,
          source_file := "a" } = true :=
  ⟨by decide, clean_data_fence_over_prefence exParse exFence _ (by decide)⟩

/-! ## C2 — idempotence -/

/-- C2 counterexample: the Cleaner is not idempotent.  On the raw input with
powers `[0, 1, 200]` the first run keeps `[1, 200]`, and a second run fences
on the quantiles of `[1, 200]` (fence `[1.495, 297.015]`) and drops the row
with power 1. -/
theorem clean_data_idempotent_cex :
    clean_data_rerun (clean_data exParse exFence) ≠ clean_data exParse exFence := by
  decide

/-- On a frame already satisfying the CleanedDataset invariants (non-null
fields, sorted), a Cleaner run reduces to dedup plus re-fencing, hence
returns a subsequence of its input. -/
theorem clean_data_rerun_sublist_of_cleaned {l : List Row}
    (hf : ∀ r ∈ l, r.turbine_id.isSome = true ∧ r.timestamp.isSome = true ∧
      r.power_output.isSome = true)
    (hs : l.Sorted RowLe) :
    (clean_data_rerun l).Sublist l := by
  have hd : ∀ r ∈ dedupFirst l, r.turbine_id.isSome = true ∧
      r.timestamp.isSome = true ∧ r.power_output.isSome = true :=
    fun r hr => hf r (mem_dedupFirst.1 hr)
  have hpp : postParse (dedupFirst l) = dedupFirst l := postParse_of_cleaned hd
  have hstage : clean_data_rerun l =
      sortRows ((dedupFirst l).filter
        (fun r => inFenceB (dedupFirst l) r)) := by
    unfold clean_data_rerun fenceSort
    rw [hpp, fence_stage_eq]
  have hsub2 : ((dedupFirst l).filter
      (fun r => inFenceB (dedupFirst l) r)).Sublist l :=
    (List.filter_sublist _).trans (sublist_dedupFirst l)
  have hsorted : ((dedupFirst l).filter
      (fun r => inFenceB (dedupFirst l) r)).Sorted RowLe :=
    hs.sublist hsub2
  rw [hstage, sortRows_eq_self hsorted]
  exact hsub2

/-- C2 amended: re-running the Cleaner on its own output (where the timestamp
parse is the identity, the column already being `datetime64`) yields a
subsequence of that output — surviving rows keep their values and relative
order, but rows can still be removed (exact duplicates that imputation or
timestamp parsing created, and rows outside the fence recomputed on the
cleaned data). -/
theorem clean_data_reclean_sublist (parseTs : String → Option Int)
    (raw : List RawRow) :
    (clean_data_rerun (clean_data parseTs raw)).Sublist (clean_data parseTs raw) :=
  clean_data_rerun_sublist_of_cleaned clean_data_fields (clean_data_sorted parseTs raw)

/-! ## C3 — no duplicate rows -/

/-- C3 counterexample: the Cleaner's output can contain two identical rows.
On two input rows that differ only in that one power is missing, imputation
fills the missing power with the group median (5), re-creating an exact
duplicate *after* the dedup step has already run. -/
theorem clean_data_nodup_cex : ¬ (clean_data exParse exDup).Nodup := by
  decide

/-- A second, independent source of duplicate output rows, with every power
present: `drop_duplicates` (line 92) runs on the *unparsed* timestamp
strings, before `to_datetime` (line 95), so two spellings of one instant both
survive dedup and parse into exact duplicates.  This is what forces the
parse-injectivity hypothesis of the amended C3. -/
theorem clean_data_spelling_dup : ¬ (clean_data exParse exSpell).Nodup := by
  decide

/-- C3 amended: if every raw row arrives with a non-null `power_output` (so
that median imputation has nothing to fill) and the timestamp parse is
injective on the raw timestamps present (no two distinct spellings in the
input denote the same instant), then no two rows of the Cleaner's output are
identical across all original columns. -/
theorem clean_data_nodup_of_no_missing (parseTs : String → Option Int)
    (raw : List RawRow)
    (hpow : ∀ r ∈ raw, r.power_output.isSome = true)
    (hinj : ∀ r ∈ raw, ∀ r' ∈ raw,
      parseTs r.timestamp = parseTs r'.timestamp → r.timestamp = r'.timestamp) :
    (clean_data parseTs raw).Nodup := by
  have hd : (dropDuplicates raw).Nodup := nodup_dedupFirst raw
  have hmemraw : ∀ r ∈ dropDuplicates raw, r ∈ raw := fun r hr => mem_dedupFirst.1 hr
  have hparsed : (parseTimestamps parseTs (dropDuplicates raw)).Nodup := by
    unfold parseTimestamps
    refine List.Nodup.map_on ?_ hd
    intro x hx y hy hxy
    have ht : parseTs x.timestamp = parseTs y.timestamp := congrArg Row.timestamp hxy
    have h2 : x.turbine_id = y.turbine_id := congrArg Row.turbine_id hxy
    have h3 : x.power_output = y.power_output := congrArg Row.power_output hxy
    have h4 : x.source_file = y.source_file := congrArg Row.source_file hxy
    have hts : x.timestamp = y.timestamp := hinj x (hmemraw x hx) y (hmemraw y hy) ht
    cases x
    cases y
    simp_all
  have hpows : ∀ r ∈ parseTimestamps parseTs (dropDuplicates raw),
      r.power_output.isSome = true := by
    intro r hr
    unfold parseTimestamps at hr
    obtain ⟨u, hu, rfl⟩ := List.mem_map.1 hr
    exact hpow u (hmemraw u hu)
  have hkeys : (dropNullKeys (parseTimestamps parseTs (dropDuplicates raw))).Nodup :=
    hparsed.sublist (List.filter_sublist _)
  have himp : imputeMissing (dropNullKeys (parseTimestamps parseTs (dropDuplicates raw))) =
      dropNullKeys (parseTimestamps parseTs (dropDuplicates raw)) := by
    unfold imputeMissing
    refine map_eq_self_of fun r hr => imputeRow_of_some ?_
    exact hpows r (List.mem_filter.1 hr).1
  have hpf : (preFence parseTs raw).Nodup := by
    unfold preFence postParse
    rw [himp]
    exact hkeys.sublist (List.filter_sublist _)
  have hfil : (((mergeFences (preFence parseTs raw)).filter fenceMask).map
      restoreColumns).Nodup := by
    rw [fence_stage_eq]
    exact hpf.sublist (List.filter_sublist _)
  exact (perm_sortRows _).symm.nodup hfil

/-- Witness for `clean_data_nodup_of_no_missing` at a concrete input. -/
theorem clean_data_nodup_of_no_missing_wit :
    (∀ r ∈ exFence, r.power_output.isSome = true) ∧
      (∀ r ∈ exFence, ∀ r' ∈ exFence,
        exParse r.timestamp = exParse r'.timestamp → r.timestamp = r'.timestamp) ∧
      (clean_data exParse exFence).Nodup :=
  ⟨by decide, by decide,
    clean_data_nodup_of_no_missing exParse exFence (by decide) (by decide)⟩

/-! ## Helper lemmas: variance and the square-free two-sigma test -/

theorem sampleVar_nonneg (l : List ℚ) : 0 ≤ sampleVar l := by
  unfold sampleVar
  split
  · rename_i hlen
    apply div_nonneg
    · apply List.sum_nonneg
      intro x hx
      obtain ⟨y, -, rfl⟩ := List.mem_map.1 hx
      positivity
    · have h2 : (2 : ℚ) ≤ (l.length : ℚ) := by exact_mod_cast hlen
      linarith
  · exact le_refl 0

/-- The strict comparison `|x| > 2·√v` of the source (`x` the deviation from
the mean, `v ≥ 0` the sample variance, `2·√v` the tolerance) is equivalent to
the square-free rational test `x² > 4·v` used in the embedding. -/
theorem sq_gt_iff_two_sqrt_lt (x v : ℚ) (hv : 0 ≤ v) :
    4 * v < x ^ 2 ↔ 2 * Real.sqrt ((v : ℚ) : ℝ) < |(x : ℝ)| := by
  have hv' : (0 : ℝ) ≤ (v : ℝ) := by exact_mod_cast hv
  have h4v : (0 : ℝ) ≤ 4 * (v : ℝ) := by linarith
  have hsqrt : 2 * Real.sqrt ((v : ℚ) : ℝ) = Real.sqrt (4 * (v : ℝ)) := by
    rw [show (4 : ℝ) * (v : ℝ) = 2 ^ 2 * (v : ℝ) by ring,
      Real.sqrt_mul (by norm_num : (0 : ℝ) ≤ (2 : ℝ) ^ 2),
      Real.sqrt_sq (by norm_num : (0 : ℝ) ≤ (2 : ℝ))]
  rw [hsqrt, ← Real.sqrt_sq_eq_abs, Real.sqrt_lt_sqrt_iff h4v]
  constructor
  · intro h; exact_mod_cast h
  · intro h; exact_mod_cast h

/-- A group whose powers are all identical (including singletons) has sample
variance zero (for singletons the undefined/null standard deviation is
already represented as variance zero). -/
theorem sampleVar_eq_zero_of_const {l : List ℚ}
    (h : ∀ p ∈ l, ∀ q ∈ l, p = q) : sampleVar l = 0 := by
  unfold sampleVar
  split
  · rename_i hlen
    rcases l with _ | ⟨x, xs⟩
    · simp at hlen
    · have hall : ∀ a ∈ x :: xs, a = x :=
        fun a ha => h a ha x (List.mem_cons_self x xs)
      have hne : ((x :: xs).length : ℚ) ≠ 0 := by
        simp [Nat.cast_add_one_ne_zero]
      have hmean : listMean (x :: xs) = x := by
        unfold listMean
        rw [List.sum_eq_card_nsmul (x :: xs) x hall, nsmul_eq_mul]
        exact mul_div_cancel_left₀ x hne
      have hzero : ((x :: xs).map (fun y => (y - listMean (x :: xs)) ^ 2)).sum = 0 := by
        apply List.sum_eq_zero
        intro y hy
        obtain ⟨a, ha, rfl⟩ := List.mem_map.1 hy
        rw [hmean, hall a ha]
        ring
      rw [hzero, zero_div]
  · rfl

/-! ## Helper lemmas: the anomaly stage -/

theorem mem_detect_anomalies {clean : List Row} {a : AnomalyRow} :
    a ∈ detect_anomalies clean ↔ ∃ r ∈ clean,
      a = { timestamp := r.timestamp, turbine_id := r.turbine_id,
            power_output := r.power_output, source_file := r.source_file,
            date := r.timestamp.map calendarDate,
            is_anomaly := isAnomalyFlag clean r } := by
  unfold detect_anomalies
  rw [List.mem_map]
  constructor
  · rintro ⟨r, hr, h⟩; exact ⟨r, hr, h.symm⟩
  · rintro ⟨r, hr, h⟩; exact ⟨r, hr, h.symm⟩

/-- Unfolding of the anomaly flag in the interesting branch: non-null key and
power, non-empty group, nonzero variance. -/
theorem isAnomalyFlag_eq {clean : List Row} {r : Row} {t : Nat} {d : Int} {p : ℚ}
    (hk : rowKey r = some (t, d)) (hp : r.power_output = some p)
    (hn : (groupPowers clean t d).length ≠ 0)
    (hv : sampleVar (groupPowers clean t d) ≠ 0) :
    isAnomalyFlag clean r =
      decide ((p - listMean (groupPowers clean t d)) ^ 2 >
        4 * sampleVar (groupPowers clean t d)) := by
  unfold isAnomalyFlag
  rw [hk, hp]
  simp only [if_neg hn, if_neg hv]

/-- A row of the frame with a given group key and power contributes that
power to its group. -/
theorem mem_groupPowers {clean : List Row} {r : Row} {t : Nat} {d : Int} {p : ℚ}
    (hr : r ∈ clean) (hk : rowKey r = some (t, d)) (hp : r.power_output = some p) :
    p ∈ groupPowers clean t d := by
  unfold groupPowers
  exact List.mem_filterMap.2 ⟨r, List.mem_filter.2 ⟨hr, by rw [hk]; simp⟩, hp⟩

/-! ## C4 — columns of the anomaly output -/

/-- C4 refuted (code bug): `detect_anomalies` drops only the intermediate
`mean`/`std` columns; the helper `date` column added at the start of the
function remains in the returned frame, contradicting both the specification
and the function's own docstring ("original columns plus `is_anomaly`").
Evaluated at a concrete one-row cleaned input. -/
theorem detect_anomalies_keeps_date_column :
    ((detect_anomalies exClean1).map (fun a => a.cells.map Prod.fst)) =
        [["timestamp", "turbine_id", "power_output", "source_file", "date", "is_anomaly"]] ∧
      "date" ∉ rawColumns ∧ "date" ≠ "is_anomaly" := by
  refine ⟨by decide, by decide, by decide⟩

/-! ## C5 — the two-sigma rule on non-degenerate groups -/

/-- C5: for an output row whose `(turbine_id, date)` group has at least two
rows and nonzero sample standard deviation, the anomaly flag is set iff the
row's power deviates from the group mean by strictly more than two sample
standard deviations. -/
theorem detect_anomalies_two_sigma (clean : List Row) (a : AnomalyRow)
    (ha : a ∈ detect_anomalies clean) (t : Nat) (d : Int) (p : ℚ)
    (ht : a.turbine_id = some t) (hd : a.date = some d)
    (hp : a.power_output = some p)
    (hn : 2 ≤ (groupPowers clean t d).length)
    (hv : sampleVar (groupPowers clean t d) ≠ 0) :
    a.is_anomaly = true ↔
      2 * sampleStd (groupPowers clean t d) <
        |(p : ℝ) - (listMean (groupPowers clean t d) : ℝ)| := by
  obtain ⟨r, hr, rfl⟩ := mem_detect_anomalies.1 ha
  simp only at ht hd hp
  obtain ⟨ts, hts, hcd⟩ := Option.map_eq_some'.1 hd
  have hk : rowKey r = some (t, d) := by
    unfold rowKey
    rw [ht, hts]
    show some (t, calendarDate ts) = some (t, d)
    rw [hcd]
  have hflag := isAnomalyFlag_eq hk hp (by omega) hv
  simp only [hflag, decide_eq_true_eq]
  have hiff := sq_gt_iff_two_sqrt_lt (p - listMean (groupPowers clean t d))
    (sampleVar (groupPowers clean t d)) (sampleVar_nonneg _)
  unfold sampleStd
  rw [show ((p - listMean (groupPowers clean t d) : ℚ) : ℝ) =
      (p : ℝ) - (listMean (groupPowers clean t d) : ℝ) by push_cast; ring] at hiff
  exact hiff

/-- Witness for `detect_anomalies_two_sigma` at a concrete input: turbine 1,
one day, readings 10 and 20 (sample variance 50, tolerance `2·√50`); the
reading 10 deviates from the mean 15 by 5 < `2·√50`, so it is not flagged. -/
theorem detect_anomalies_two_sigma_wit :
    (({ timestamp := some 0, turbine_id := some 1, power_output := some 10,
        source_file := "a", date := some 0, is_anomaly := false } : AnomalyRow)
      ∈ detect_anomalies exDay) ∧
    2 ≤ (groupPowers exDay 1 0).length ∧
    sampleVar (groupPowers exDay 1 0) ≠ 0 ∧
    (({ timestamp := some 0, turbine_id := some 1, power_output := some 10,
        source_file := "a", date := some 0, is_anomaly := false } : AnomalyRow).is_anomaly = true ↔
      2 * sampleStd (groupPowers exDay 1 0) <
        |((10 : ℚ) : ℝ) - (listMean (groupPowers exDay 1 0) : ℝ)|) :=
  ⟨by decide, by decide, by decide,
    detect_anomalies_two_sigma exDay _ (by decide) 1 0 10
      (by decide) (by decide) (by decide) (by decide) (by decide)⟩

/-! ## C6 — zero-variance groups never flag -/

/-- C6: an output row whose `(turbine_id, date)` group has all-identical
power values — including single-row groups, whose sample standard deviation
is undefined — is never flagged. -/
theorem detect_anomalies_zero_variance (clean : List Row) (a : AnomalyRow)
    (ha : a ∈ detect_anomalies clean) (t : Nat) (d : Int)
    (ht : a.turbine_id = some t) (hd : a.date = some d)
    (hconst : ∀ p ∈ groupPowers clean t d, ∀ q ∈ groupPowers clean t d, p = q) :
    a.is_anomaly = false := by
  obtain ⟨r, hr, rfl⟩ := mem_detect_anomalies.1 ha
  simp only at ht hd
  obtain ⟨ts, hts, hcd⟩ := Option.map_eq_some'.1 hd
  have hk : rowKey r = some (t, d) := by
    unfold rowKey
    rw [ht, hts]
    show some (t, calendarDate ts) = some (t, d)
    rw [hcd]
  show isAnomalyFlag clean r = false
  unfold isAnomalyFlag
  rw [hk]
  rcases hp : r.power_output with _ | p
  · rfl
  · have hz : sampleVar (groupPowers clean t d) = 0 := sampleVar_eq_zero_of_const hconst
    by_cases hlen : (groupPowers clean t d).length = 0
    · simp [hlen]
    · simp [hlen, hz]

/-- Witness for `detect_anomalies_zero_variance` at a concrete input: one
turbine-day with two identical readings. -/
theorem detect_anomalies_zero_variance_wit :
    (({ timestamp := some 0, turbine_id := some 1, power_output := some 10,
        source_file := "a", date := some 0, is_anomaly := false } : AnomalyRow)
      ∈ detect_anomalies exConst) ∧
    (({ timestamp := some 0, turbine_id := some 1, power_output := some 10,
        source_file := "a", date := some 0, is_anomaly := false } : AnomalyRow).is_anomaly = false) :=
  ⟨by decide,
    detect_anomalies_zero_variance exConst _ (by decide) 1 0
      (by decide) (by decide) (by decide)⟩

/-! ## C7 — row-count invariance -/

/-- C7: the anomaly stage emits exactly one record per input row. -/
theorem detect_anomalies_row_count (clean : List Row) :
    (detect_anomalies clean).length = clean.length := by
  unfold detect_anomalies
  exact List.length_map _ _

/-! ## C10 — order preservation -/

/-- C10: the anomaly stage keeps the input rows in place: the i-th output
record agrees with the i-th input row on every original column. -/
theorem detect_anomalies_preserves_rows (clean : List Row) (i : ℕ)
    (hi : i < clean.length) :
    ∃ r a, clean[i]? = some r ∧ (detect_anomalies clean)[i]? = some a ∧
      a.timestamp = r.timestamp ∧ a.turbine_id = r.turbine_id ∧
      a.power_output = r.power_output ∧ a.source_file = r.source_file := by
  have h1 : clean[i]? = some clean[i] := List.getElem?_eq_getElem hi
  have h2 : (detect_anomalies clean)[i]? = some
      { timestamp := clean[i].timestamp, turbine_id := clean[i].turbine_id,
        power_output := clean[i].power_output, source_file := clean[i].source_file,
        date := clean[i].timestamp.map calendarDate,
        is_anomaly := isAnomalyFlag clean clean[i] } := by
    unfold detect_anomalies
    rw [List.getElem?_map, h1]
    rfl
  exact ⟨clean[i], _, h1, h2, rfl, rfl, rfl, rfl⟩

/-- Witness for `detect_anomalies_preserves_rows` at a concrete input. -/
theorem detect_anomalies_preserves_rows_wit :
    0 < exClean1.length ∧
      ∃ r a, exClean1[0]? = some r ∧ (detect_anomalies exClean1)[0]? = some a ∧
        a.timestamp = r.timestamp ∧ a.turbine_id = r.turbine_id ∧
        a.power_output = r.power_output ∧ a.source_file = r.source_file :=
  ⟨by decide, detect_anomalies_preserves_rows exClean1 0 (by decide)⟩

/-! ## Helper lemmas: group keys and aggregates -/

theorem mem_groupKeys {l : List Row} {k : Nat × Int} :
    k ∈ groupKeys l ↔ ∃ r ∈ l, rowKey r = some k := by
  unfold groupKeys
  rw [(List.perm_insertionSort KeyLe _).mem_iff, mem_dedupFirst, List.mem_filterMap]

theorem nodup_groupKeys (l : List Row) : (groupKeys l).Nodup :=
  (List.perm_insertionSort KeyLe _).symm.nodup (nodup_dedupFirst _)

theorem isCleaned_fields {l : List Row} (h : isCleaned l = true) :
    ∀ r ∈ l, r.turbine_id.isSome = true ∧ r.timestamp.isSome = true ∧
      r.power_output.isSome = true := by
  intro r hr
  have h1 := (List.all_eq_true.1 h) r hr
  rw [Bool.and_eq_true, Bool.and_eq_true] at h1
  exact ⟨h1.1.1, h1.1.2, h1.2⟩

theorem foldl_min_le_init (xs : List ℚ) (x : ℚ) : xs.foldl min x ≤ x := by
  induction xs generalizing x with
  | nil => exact le_refl x
  | cons y ys ih => exact (ih (min x y)).trans (min_le_left x y)

theorem foldl_min_le_mem {a : ℚ} :
    ∀ {xs : List ℚ} {x : ℚ}, a ∈ xs → xs.foldl min x ≤ a := by
  intro xs
  induction xs with
  | nil => intro x h; cases h
  | cons y ys ih =>
    intro x h
    rcases List.mem_cons.1 h with rfl | h
    · exact (foldl_min_le_init ys (min x a)).trans (min_le_right x a)
    · exact ih h

theorem listMin_le {l : List ℚ} {a : ℚ} (h : a ∈ l) : listMin l ≤ a := by
  rcases l with _ | ⟨x, xs⟩
  · cases h
  · rcases List.mem_cons.1 h with rfl | h
    · exact foldl_min_le_init xs a
    · exact foldl_min_le_mem h

theorem init_le_foldl_max (xs : List ℚ) (x : ℚ) : x ≤ xs.foldl max x := by
  induction xs generalizing x with
  | nil => exact le_refl x
  | cons y ys ih => exact (le_max_left x y).trans (ih (max x y))

theorem mem_le_foldl_max {a : ℚ} :
    ∀ {xs : List ℚ} {x : ℚ}, a ∈ xs → a ≤ xs.foldl max x := by
  intro xs
  induction xs with
  | nil => intro x h; cases h
  | cons y ys ih =>
    intro x h
    rcases List.mem_cons.1 h with rfl | h
    · exact (le_max_right x a).trans (init_le_foldl_max ys (max x a))
    · exact ih h

theorem le_listMax {l : List ℚ} {a : ℚ} (h : a ∈ l) : a ≤ listMax l := by
  rcases l with _ | ⟨x, xs⟩
  · cases h
  · rcases List.mem_cons.1 h with rfl | h
    · exact init_le_foldl_max xs a
    · exact mem_le_foldl_max h

theorem mul_length_le_sum {l : List ℚ} {m : ℚ} (h : ∀ a ∈ l, m ≤ a) :
    m * (l.length : ℚ) ≤ l.sum := by
  induction l with
  | nil => simp
  | cons x xs ih =>
    have h1 : m * (xs.length : ℚ) ≤ xs.sum :=
      ih fun a ha => h a (List.mem_cons_of_mem x ha)
    have h2 : m ≤ x := h x (List.mem_cons_self x xs)
    have h3 : ((x :: xs).length : ℚ) = (xs.length : ℚ) + 1 := by
      rw [List.length_cons]; push_cast; ring
    rw [h3, List.sum_cons]
    nlinarith

theorem sum_le_mul_length {l : List ℚ} {m : ℚ} (h : ∀ a ∈ l, a ≤ m) :
    l.sum ≤ m * (l.length : ℚ) := by
  induction l with
  | nil => simp
  | cons x xs ih =>
    have h1 : xs.sum ≤ m * (xs.length : ℚ) :=
      ih fun a ha => h a (List.mem_cons_of_mem x ha)
    have h2 : x ≤ m := h x (List.mem_cons_self x xs)
    have h3 : ((x :: xs).length : ℚ) = (xs.length : ℚ) + 1 := by
      rw [List.length_cons]; push_cast; ring
    rw [h3, List.sum_cons]
    nlinarith

theorem listMin_le_listMean {l : List ℚ} (h : l ≠ []) : listMin l ≤ listMean l := by
  have hn : (0 : ℚ) < (l.length : ℚ) := by
    have := List.length_pos.2 h
    exact_mod_cast this
  rw [listMean, le_div_iff₀ hn]
  exact mul_length_le_sum fun a ha => listMin_le ha

theorem listMean_le_listMax {l : List ℚ} (h : l ≠ []) : listMean l ≤ listMax l := by
  have hn : (0 : ℚ) < (l.length : ℚ) := by
    have := List.length_pos.2 h
    exact_mod_cast this
  rw [listMean, div_le_iff₀ hn]
  have hb : ∀ a ∈ l, a ≤ listMax l := fun a ha => le_listMax ha
  have := sum_le_mul_length hb
  linarith [this]

/-! ## C8 — completeness and ordering of the daily statistics -/

/-- C8: on a cleaned input, `calculate_daily_stats` emits exactly one record
per `(turbine_id, calendar_date)` pair present in the input (and none for
absent pairs), and every record satisfies
`min_output ≤ avg_output ≤ max_output`. -/
theorem length_filter_eq_key {α : Type} [DecidableEq α] {l : List α}
    (hnd : l.Nodup) (a : α) :
    (l.filter (fun x => decide (x = a))).length = if a ∈ l then 1 else 0 := by
  induction l with
  | nil => simp
  | cons x xs ih =>
    rw [List.nodup_cons] at hnd
    obtain ⟨hx, hxs⟩ := hnd
    by_cases hax : x = a
    · subst hax
      rw [List.filter_cons_of_pos (by simp)]
      have h0 : x ∉ xs := hx
      rw [List.length_cons, ih hxs, if_neg h0, if_pos (List.mem_cons_self x xs)]
    · rw [List.filter_cons_of_neg (by simp [hax])]
      rw [ih hxs]
      by_cases hmem : a ∈ xs
      · rw [if_pos hmem, if_pos (List.mem_cons_of_mem x hmem)]
      · rw [if_neg hmem, if_neg]
        intro hc
        rcases List.mem_cons.1 hc with rfl | hc2
        · exact hax rfl
        · exact hmem hc2

theorem calculate_daily_stats_spec (clean : List Row)
    (h : isCleaned clean = true) :
    (∀ t d, ((calculate_daily_stats clean).filter
        (fun s => s.turbine_id == t && s.date == d)).length =
      (if clean.any (fun r => rowKey r == some (t, d)) then 1 else 0)) ∧
    (∀ s ∈ calculate_daily_stats clean,
      s.min_output ≤ s.avg_output ∧ s.avg_output ≤ s.max_output) := by
  constructor
  · intro t d
    have hfac : (calculate_daily_stats clean).filter
        (fun s => s.turbine_id == t && s.date == d) =
        ((groupKeys clean).filter (fun k => k == (t, d))).map
          (fun k => (⟨k.1, k.2, listMin (groupPowers clean k.1 k.2),
            listMax (groupPowers clean k.1 k.2),
            listMean (groupPowers clean k.1 k.2)⟩ : DailyStat)) := by
      unfold calculate_daily_stats
      rw [List.filter_map]
      rfl
    have hconv : (groupKeys clean).filter (fun k => k == (t, d)) =
        (groupKeys clean).filter (fun k => decide (k = (t, d))) :=
      List.filter_congr (fun k _ => by by_cases hk : k = (t, d) <;> simp [hk])
    rw [hfac, List.length_map, hconv, length_filter_eq_key (nodup_groupKeys clean)]
    by_cases hmem : (t, d) ∈ groupKeys clean
    · rw [if_pos hmem, if_pos]
      obtain ⟨r, hr, hk⟩ := mem_groupKeys.1 hmem
      exact List.any_eq_true.2 ⟨r, hr, by rw [hk]; simp⟩
    · rw [if_neg hmem, if_neg]
      intro hany
      obtain ⟨r, hr, hk⟩ := List.any_eq_true.1 hany
      exact hmem (mem_groupKeys.2 ⟨r, hr, by simpa using hk⟩)
  · intro s hs
    obtain ⟨k, hk, rfl⟩ := List.mem_map.1 hs
    obtain ⟨r, hr, hrk⟩ := mem_groupKeys.1 hk
    obtain ⟨-, -, hpow⟩ := isCleaned_fields h r hr
    obtain ⟨p, hp⟩ := Option.isSome_iff_exists.1 hpow
    have hmem : p ∈ groupPowers clean k.1 k.2 := mem_groupPowers hr hrk hp
    have hne : groupPowers clean k.1 k.2 ≠ [] := List.ne_nil_of_mem hmem
    exact ⟨listMin_le_listMean hne, listMean_le_listMax hne⟩

/-- Witness for `calculate_daily_stats_spec` at a concrete input. -/
theorem calculate_daily_stats_spec_wit :
    isCleaned exDay = true ∧
      ((calculate_daily_stats exDay).filter
        (fun s => s.turbine_id == 1 && s.date == 0)).length =
        (if exDay.any (fun r => rowKey r == some (1, 0)) then 1 else 0) :=
  ⟨by decide, (calculate_daily_stats_spec exDay (by decide)).1 1 0⟩

/-! ## C9 — column restoration in the Cleaner -/

/-- C9: every row of the Cleaner's output carries exactly the original input
columns in the original order, with the derived fence columns `low`/`high`
absent; and the final column selection `df.loc[mask, raw.columns]`
(`restoreColumns`) is exactly the projection of the merged frame's cells onto
the original column list. -/
theorem clean_data_column_restoration (parseTs : String → Option Int)
    (raw : List RawRow) :
    (∀ r ∈ clean_data parseTs raw, r.cells.map Prod.fst = rawColumns ∧
      "low" ∉ r.cells.map Prod.fst ∧ "high" ∉ r.cells.map Prod.fst) ∧
    (∀ m : MergedRow, (restoreColumns m).cells = selectCells rawColumns m.cells) := by
  constructor
  · intro r _
    exact ⟨rfl, by simp [Row.cells, rawColumns], by simp [Row.cells, rawColumns]⟩
  · intro m
    rfl

/-- The surviving high row of `exFence`, used in the C9 witness. -/
def exRow200 : Row :=
  { timestamp := some 2, turbine_id := some 1, power_output := some 200,
    source_file := "a" }

/-- Witness for `clean_data_column_restoration` at a concrete input. -/
theorem clean_data_column_restoration_wit :
    exRow200 ∈ clean_data exParse exFence ∧ exRow200.cells.map Prod.fst = rawColumns :=
  ⟨by decide, ((clean_data_column_restoration exParse exFence).1 _ (by decide)).1⟩
